import Mathlib

/-!
Verification of the trampoline CoP/force analysis engine.

Shallow embedding of the repository's series container, event segmenter,
concatenation-aware re-segmentation, and the numeric helpers.

Modelling conventions:
* a machine float that may be NaN is `Option ℚ` (`none` = NaN); arithmetic
  on such values propagates `none` exactly as NaN propagates;
* the floating square root inside `np.linalg.norm` is rendered by `Rat.sqrt`;
  no claim depends on the value of a square root, only on its NaN pattern;
* numpy arrays are lists; a `(N, 1)` column array is a list of singleton rows,
  and its single column is extracted with `colEntries` where the code treats
  it as a 1-D signal;
* numpy fancy slicing `a[l:t]` is `(a.drop l).take (t - l)`, `a[k:]` is
  `a.drop k`; `a[:-k]` with a variable `k` is `pySliceNeg k a`, which is the
  empty slice when `k = 0` (Python `[:-0]` is `[:0]`) and `a.take (a.length - k)`
  otherwise; the fixed nonzero slices `[:-1]` and `[:-2w]` with literal
  window 2 elsewhere are written with `take` directly;
* Python `raise` is an `Except.error`; an out-of-bounds subscript on an
  empty index array is `SegError.indexError`, the explicit RuntimeError of
  `_compute_timings_indices` is `SegError.mismatch` carrying both counts.
-/

/-- One possibly-NaN channel value. -/
abbrev Val := Option ℚ

/-- A multi-channel row of a series' value matrix. -/
abbrev Row := List Val

/-- A value matrix: one row per sample. -/
abbrev Table := List Row

/-- A 1-D gap signal (single column). -/
abbrev Signal := List Val

/-- NaN-propagating subtraction. -/
def osub : Val → Val → Val
  | some a, some b => some (a - b)
  | _, _ => none

/-- NaN-propagating addition. -/
def oadd : Val → Val → Val
  | some a, some b => some (a + b)
  | _, _ => none

/-- The single column of an `(N, 1)` column array. -/
def colEntries (m : Table) : Signal := m.map (fun r => r.headD (some 0))

/-- `np.linalg.norm` of one row of differences: NaN if any entry is NaN,
else the euclidean norm (floating sqrt rendered by `Rat.sqrt`). -/
def rowNorm (r : Row) : Val :=
  if r.all Option.isSome then some (Rat.sqrt ((r.map (fun o => o.getD 0 * o.getD 0)).sum)) else none

/-- One row of `helpers.derivative`'s interior:
`(data[i-w] - data[i+w]) / (t[i-w] - t[i+w])` per channel. -/
def rowDerivative (r1 r2 : Row) (d : ℚ) : Row :=
  (List.zipWith osub r1 r2).map (fun o => o.map (fun x => x / d))

/-- Python slice `a[:-k]`: for `k = 0` this is `a[:0]`, the empty slice;
otherwise it drops the last `k` elements. -/
def pySliceNeg {α : Type} (k : ℕ) (l : List α) : List α :=
  if k = 0 then [] else l.take (l.length - k)

/-- `helpers.derivative(t, data, window)`: window-sized NaN padding at both
ends around `(data[:-2w] - data[2w:]) / (t[:-2w] - t[2w:])[:, newaxis]`.
For `window = 0` the `[:-0]` slices are empty, so the core (and for a
one-row input the whole result) is empty; the numpy broadcast ValueError
this raises on two or more rows is not modelled — the elementwise
subtraction truncates to the shorter (empty) operand instead. -/
def derivative (t : List ℚ) (data : Table) (window : ℕ) : Table :=
  let tw := window * 2
  let padRow : Row := List.replicate (data.headD []).length none
  let core := List.zipWith (fun pr d => rowDerivative pr.1 pr.2 d)
    ((pySliceNeg tw data).zip (data.drop tw))
    (List.zipWith (fun a b => a - b) (pySliceNeg tw t) (t.drop tw))
  List.replicate window padRow ++ core ++ List.replicate window padRow

/-- `helpers.integral(t, data)`:
`np.nansum((t[1:] - t[:-1]) * ((data[1:, :] + data[:-1, :]) / 2).T)`;
each NaN term contributes 0. -/
def integral (t : List ℚ) (data : Table) : ℚ :=
  (List.zipWith
    (fun d pr =>
      ((List.zipWith oadd pr.1 pr.2).map
        (fun o => match o with
          | some v => d * (v / 2)
          | none => 0)).sum)
    (List.zipWith (fun a b => a - b) (t.drop 1) (t.take (t.length - 1)))
    ((data.drop 1).zip (data.take (data.length - 1)))).sum

/-- The series container `Data`: a time vector, a value matrix and the
conversion factor used by `append`. -/
structure Data where
  t : List ℚ
  y : Table
  conversion_factor : ℚ
deriving DecidableEq, Inhabited, Repr

/-- `Data.append(t, y)`: appends the timestamp and the converted row; a raw
value equal to the sentinel 2147483647 is stored as NaN, all others are
multiplied by the conversion factor. -/
def Data.append (d : Data) (ts : ℚ) (row : List ℚ) : Data :=
  { d with
    t := d.t ++ [ts]
    y := d.y ++ [row.map (fun v => if v ≠ 2147483647 then some (v * d.conversion_factor) else none)] }

/-- The time axis of `Data.concatenate`: self's raw times followed by other's
times shifted by self's last time value. -/
def concatT (t1 t2 : List ℚ) : List ℚ := t1 ++ t2.map (fun x => t1.getLastD 0 + x)

/-- Errors surfaced by `_compute_timings_indices`. -/
inductive SegError where
  | indexError : SegError
  | mismatch (takeoffs landings : ℕ) : SegError
deriving DecidableEq, Repr

/-- `1 * np.isnan(signal)`: the 0/1 gap indicator. -/
def gapIndicator (disp : Signal) : List ℤ :=
  disp.map (fun v => if v.isNone then (1 : ℤ) else 0)

/-- `np.concatenate((((0,),), in_air[1:] - in_air[:-1]))`. -/
def rawEvents (g : List ℤ) : List ℤ :=
  0 :: List.zipWith (fun a b => a - b) (g.drop 1) g

/-- `events[:2] = 0`. -/
def zeroFirstTwo : List ℤ → List ℤ
  | [] => []
  | [_] => [0]
  | _ :: _ :: rest => 0 :: 0 :: rest

/-- The edge-event signal derived from a gap signal. -/
def eventsOf (disp : Signal) : List ℤ :=
  zeroFirstTwo (rawEvents (gapIndicator disp))

/-- `np.where(events == v)[0]`: the ascending indices where `events` is `v`. -/
def whereEq (e : List ℤ) (v : ℤ) : List ℕ :=
  (List.range e.length).filter (fun i => decide (e.getD i 0 = v))

/-- `CoPData._compute_timings_indices` on the single column of the
displacement array: landing/takeoff extraction, boundary trimming, and the
count sanity check. Subscripting an empty index array is `indexError`. -/
def compute_timings_indices (disp : Signal) : Except SegError (List ℕ × List ℕ) :=
  let events := eventsOf disp
  let landings0 := whereEq events (-1)
  let takeoffs0 := whereEq events 1
  match landings0.head?, takeoffs0.head? with
  | some l0, some t0 =>
    let landings1 := if l0 < t0 then landings0.drop 1 else landings0
    match landings1.getLast? with
    | some llast =>
      let takeoffs1 := if takeoffs0.getLastD 0 > llast then takeoffs0.dropLast else takeoffs0
      if takeoffs1.length ≠ landings1.length then
        .error (.mismatch takeoffs1.length landings1.length)
      else
        .ok (takeoffs1, landings1)
    | none => .error .indexError
  | _, _ => .error .indexError

/-- `CoPData._compute_cop_displacement(window)`: NaN padding of `window` rows
around `np.linalg.norm(y[2w:, :] - y[:-2w, :], axis=1)[:, newaxis]`. -/
def compute_cop_displacement (y : Table) (window : ℕ) : Table :=
  let tw := window * 2
  let core := List.zipWith (fun r1 r2 => [rowNorm (List.zipWith osub r1 r2)])
    (y.drop tw) (y.take (y.length - tw))
  List.replicate window [none] ++ core ++ List.replicate window [none]

/-- A constructed `CoPData`: the base series plus the derived signals and the
segmentation indices computed by `__init__`. -/
structure CoPData where
  t : List ℚ
  y : Table
  conversion_factor : ℚ
  displacement : Table
  velocity : Table
  acceleration : Table
  takeoffs_indices : List ℕ
  landings_indices : List ℕ
deriving DecidableEq, Inhabited, Repr

/-- `CoPData.__init__(data)`: derives displacement (window 2), velocity and
acceleration, and runs the segmenter on the displacement column. -/
def CoPData.init (d : Data) : Except SegError CoPData :=
  let disp := compute_cop_displacement d.y 2
  let vel := derivative d.t disp 2
  let acc := derivative d.t vel 2
  (compute_timings_indices (colEntries disp)).map
    (fun p => ⟨d.t, d.y, d.conversion_factor, disp, vel, acc, p.1, p.2⟩)

/-- `CoPData.concatenate(other)`: concatenates the raw series, rebuilds a
`CoPData` from scratch (recomputing the indices), then splices out the entry
at position `len(self.takeoffs_indices)` / `len(self.landings_indices)` from
the freshly recomputed index lists. -/
def CoPData.concatenate (a b : CoPData) : Except SegError CoPData :=
  (CoPData.init ⟨concatT a.t b.t, a.y ++ b.y, a.conversion_factor⟩).map
    (fun out =>
      { out with
        takeoffs_indices :=
          out.takeoffs_indices.take a.takeoffs_indices.length ++
            out.takeoffs_indices.drop (a.takeoffs_indices.length + 1)
        landings_indices :=
          out.landings_indices.take a.landings_indices.length ++
            out.landings_indices.drop (a.landings_indices.length + 1) })

/-- `CoPData.flight_times`: `t[landing] - t[takeoff]` per (takeoff, landing)
pair. -/
def CoPData.flight_times (c : CoPData) : List ℚ :=
  (c.takeoffs_indices.zip c.landings_indices).map
    (fun p => c.t.getD p.2 0 - c.t.getD p.1 0)

/-- Python slice `a[l:t]`. -/
def pySlice {α : Type} (l : List α) (a b : ℕ) : List α := (l.drop a).take (b - a)

/-- The per-mat-interval comprehension shared by all metrics:
`(f(t, l) for t, l in zip(takeoffs[1:], landings[:-1]))`. -/
def matMetric {α : Type} (tks lds : List ℕ) (f : ℕ × ℕ → α) : List α :=
  ((tks.drop 1).zip lds.dropLast).map f

/-- `np.nanmax` over a slice: maximum of the non-NaN entries. -/
def nanmax (m : Table) : ℚ :=
  match (m.flatten.filterMap id) with
  | [] => 0
  | x :: xs => xs.foldl max x

/-- `np.nanmin` over a slice. -/
def nanmin (m : Table) : ℚ :=
  match (m.flatten.filterMap id) with
  | [] => 0
  | x :: xs => xs.foldl min x

/-- `CoPData.displacement_integral`. -/
def CoPData.displacement_integral (c : CoPData) : List ℚ :=
  matMetric c.takeoffs_indices c.landings_indices
    (fun p => integral (pySlice c.t p.2 p.1) (pySlice c.displacement p.2 p.1))

/-- `CoPData.displacement_ranges`. -/
def CoPData.displacement_ranges (c : CoPData) : List ℚ :=
  matMetric c.takeoffs_indices c.landings_indices
    (fun p => nanmax (pySlice c.displacement p.2 p.1) - nanmin (pySlice c.displacement p.2 p.1))

/-- `CoPData.impulses` (the velocity integral in the mat). -/
def CoPData.impulses (c : CoPData) : List ℚ :=
  matMetric c.takeoffs_indices c.landings_indices
    (fun p => integral (pySlice c.t p.2 p.1) (pySlice c.velocity p.2 p.1))

/-- `CoPData.velocity_ranges`. -/
def CoPData.velocity_ranges (c : CoPData) : List ℚ :=
  matMetric c.takeoffs_indices c.landings_indices
    (fun p => nanmax (pySlice c.velocity p.2 p.1) - nanmin (pySlice c.velocity p.2 p.1))

/-- `CoPData.acceleration_integral`. -/
def CoPData.acceleration_integral (c : CoPData) : List ℚ :=
  matMetric c.takeoffs_indices c.landings_indices
    (fun p => integral (pySlice c.t p.2 p.1) (pySlice c.acceleration p.2 p.1))

/-- `CoPData.acceleration_ranges`. -/
def CoPData.acceleration_ranges (c : CoPData) : List ℚ :=
  matMetric c.takeoffs_indices c.landings_indices
    (fun p => nanmax (pySlice c.acceleration p.2 p.1) - nanmin (pySlice c.acceleration p.2 p.1))

/-- `ForceSensorData`: the summed, thresholded force column with the event
indices used by `force_integral`. -/
structure ForceSensorData where
  t : List ℚ
  y : Table
  takeoffs_indices : List ℕ
  landings_indices : List ℕ
deriving DecidableEq, Inhabited, Repr

/-- `ForceSensorData.force_integral`. -/
def ForceSensorData.force_integral (f : ForceSensorData) : List ℚ :=
  matMetric f.takeoffs_indices f.landings_indices
    (fun p => integral (pySlice f.t p.2 p.1) (pySlice f.y p.2 p.1))

/-! ### Reference-semantics model of the raw container, for the frame claim

`Data` objects in the source hold references to numpy arrays; `Data(data=self)`
copies the references (aliasing), while `out.t = np.concatenate(...)` rebinds
`out`'s reference to a freshly allocated array. The store holds every array
ever allocated; an object addresses its arrays by index. -/

/-- The array store: all allocated time vectors and value matrices. -/
structure Store where
  ts : List (List ℚ)
  ys : List Table
deriving DecidableEq, Inhabited, Repr

/-- A `Data` object under reference semantics: references into the store plus
the inline conversion factor. -/
structure DataRef where
  tRef : ℕ
  yRef : ℕ
  conversion_factor : ℚ
deriving DecidableEq, Inhabited, Repr

/-- Read a time array out of the store. -/
def Store.getT (s : Store) (r : ℕ) : List ℚ := s.ts.getD r []

/-- Read a value matrix out of the store. -/
def Store.getY (s : Store) (r : ℕ) : Table := s.ys.getD r []

/-- Allocate a fresh time array, returning its reference. -/
def Store.allocT (s : Store) (a : List ℚ) : Store × ℕ :=
  (⟨s.ts ++ [a], s.ys⟩, s.ts.length)

/-- Allocate a fresh value matrix, returning its reference. -/
def Store.allocY (s : Store) (a : Table) : Store × ℕ :=
  (⟨s.ts, s.ys ++ [a]⟩, s.ys.length)

/-- `Data.__init__(data=self)`: copies the array references (aliasing) and the
conversion factor; allocates nothing. -/
def DataRef.copyInit (d : DataRef) : DataRef := d

/-- `Data.concatenate(other)` under reference semantics: builds `out` by the
aliasing copy constructor, reads `out.t[-1]`, allocates the concatenated time
axis and value matrix as fresh arrays and rebinds `out`'s references to them. -/
def Data.concatenate (s : Store) (self other : DataRef) : Store × DataRef :=
  let out := self.copyInit
  let timeOffset := (s.getT out.tRef).getLastD 0
  let newT := s.getT out.tRef ++ (s.getT other.tRef).map (fun x => timeOffset + x)
  let p1 := s.allocT newT
  let newY := p1.1.getY out.yRef ++ p1.1.getY other.yRef
  let p2 := p1.1.allocY newY
  (p2.1, ⟨p1.2, p2.2, out.conversion_factor⟩)

/-! ### Specification-side formulas (stated from the spec text, for
refinement comparison) -/

/-- From the spec: a uniform time grid `a, a+h, ..., a+n*h` with `n`
intervals. -/
def tGrid (a h : ℚ) : ℕ → List ℚ
  | 0 => [a]
  | n + 1 => a :: tGrid (a + h) h n

/-- From the spec: sum over consecutive sample pairs of
`(t[i+1] - t[i]) * (data[i] + data[i+1]) / 2`, any pair containing NaN
contributing zero, channels summed into one scalar. -/
def trapezoid_spec (t : List ℚ) (data : Table) (cols : ℕ) : ℚ :=
  ∑ i ∈ Finset.range (data.length - 1), ∑ ch ∈ Finset.range cols,
    match (data.getD i []).getD ch none, (data.getD (i + 1) []).getD ch none with
    | some x, some y => (t.getD (i + 1) 0 - t.getD i 0) * ((x + y) / 2)
    | _, _ => 0

/-! ### Concrete inputs used to instantiate the theorems -/

/-- A valid XY CoP sample. -/
def vrow : Row := [some 0, some 0]

/-- An invalid (in-flight) XY CoP sample. -/
def nrow : Row := [none, none]

/-- An XY CoP matrix of `n` samples whose rows inside the given index ranges
are NaN (in flight) and valid elsewhere. -/
def yOf (n : ℕ) (nanRanges : List (ℕ × ℕ)) : Table :=
  (List.range n).map
    (fun i => if nanRanges.any (fun p => decide (p.1 ≤ i) && decide (i < p.2)) then nrow else vrow)

/-- Timestamps `0, 1, ..., n-1`. -/
def tOf (n : ℕ) : List ℚ := (List.range n).map (fun i => (i : ℚ))

/-- A 20-sample trial whose only flight is the NaN run at samples 8..12:
one flight (takeoff 6, landing 15 on the displacement signal). -/
def cexA : Data := ⟨tOf 20, yOf 20 [(8, 13)], 1⟩

/-- A second copy of the same one-flight trial. -/
def cexB : Data := ⟨tOf 20, yOf 20 [(8, 13)], 1⟩

/-- A 26-sample trial with an interior flight (samples 6..10) that ends
mid-flight (samples 16..25): one counted flight. -/
def witA : Data := ⟨tOf 26, yOf 26 [(6, 11), (16, 26)], 1⟩

/-- A 26-sample trial that starts mid-flight (samples 0..4) and has an
interior flight (samples 10..14): one counted flight. -/
def witB : Data := ⟨tOf 26, yOf 26 [(0, 5), (10, 15)], 1⟩

/-- Extract the successfully constructed `CoPData` (the calling convention in
`main.py` only ever sees the success path). -/
def forceOk (e : Except SegError CoPData) : CoPData := e.toOption.getD default

/-- The segmented first junction trial. -/
def witACoP : CoPData := forceOk (CoPData.init witA)

/-- The segmented second junction trial. -/
def witBCoP : CoPData := forceOk (CoPData.init witB)

/-- The end-to-end scenario gap signal `[1,1,NaN,NaN,1,1,NaN,NaN,1]`. -/
def c4sig : Signal := [some 1, some 1, none, none, some 1, some 1, none, none, some 1]

/-- A segmented series with two flights used to instantiate the per-interval
metric claim. -/
def c6cop : CoPData :=
  ⟨tOf 9, [], 1,
    (List.range 9).map (fun i => [some (i : ℚ)]),
    (List.range 9).map (fun _ => [some (1 : ℚ)]),
    (List.range 9).map (fun _ => [some (0 : ℚ)]),
    [2, 6], [4, 8]⟩

/-- A segmented force series with two flights. -/
def c6force : ForceSensorData :=
  ⟨tOf 9, (List.range 9).map (fun _ => [some (50 : ℚ)]), [2, 6], [4, 8]⟩

/-! ### Event predicates used to analyse the segmenter -/

/-- Gap at index `i` (out-of-range reads count as valid, matching the
in-range uses below). -/
def isGap (disp : Signal) (i : ℕ) : Bool := (disp.getD i (some 0)).isNone

/-- The event signal is `+1` at `i`: a present-to-missing edge at an index
not suppressed by `events[:2] = 0`. -/
def TkEvent (disp : Signal) (i : ℕ) : Prop :=
  2 ≤ i ∧ i < disp.length ∧ isGap disp i = true ∧ isGap disp (i - 1) = false

/-- The event signal is `-1` at `i`: a missing-to-present edge at an index
not suppressed by `events[:2] = 0`. -/
def LdEvent (disp : Signal) (i : ℕ) : Prop :=
  2 ≤ i ∧ i < disp.length ∧ isGap disp i = false ∧ isGap disp (i - 1) = true

/-! ## Claim theorems -/

/-- Claim C3 (code-bug evidence): on a series with zero samples, and on a gap
signal with no gaps at all, `_compute_timings_indices` does NOT return two
empty index lists: it fails with an index error (subscripting the empty
landing-index array), contradicting the spec's explicit non-error edge case. -/
theorem c3_degenerate_case_raises :
    compute_timings_indices (colEntries (compute_cop_displacement ([] : Table) 2)) =
      .error .indexError ∧
    compute_timings_indices (List.replicate 9 (some (1 : ℚ))) = .error .indexError ∧
    (Except.error SegError.indexError : Except SegError (List ℕ × List ℕ)) ≠ .ok ([], []) :=
  ⟨rfl, rfl, by simp⟩

/-- Claim C4: on the gap signal `[1,1,NaN,NaN,1,1,NaN,NaN,1]` over timestamps
`0..8` the segmenter returns takeoffs `[2,6]` and landings `[4,8]`, and the
flight times `t[landing] - t[takeoff]` are `[2, 2]`. -/
theorem c4_end_to_end_scenario :
    compute_timings_indices c4sig = .ok ([2, 6], [4, 8]) ∧
    CoPData.flight_times ⟨[0, 1, 2, 3, 4, 5, 6, 7, 8], [], 1, [], [], [], [2, 6], [4, 8]⟩ =
      [2, 2] :=
  ⟨rfl, by simp [CoPData.flight_times]; norm_num⟩

/-- Claim C1 (counterexample): two already-segmented one-flight series whose
junction region is fully valid. Re-segmenting their concatenation yields
exactly the 1 + 1 = 2 genuine flights, and the unconditional splice correction
then deletes a genuine event pair: the result has 1 flight, not 1 + 1. -/
theorem c1_counterexample :
    ((CoPData.init cexA).bind (fun a => (CoPData.init cexB).bind (fun b =>
      (CoPData.concatenate a b).map (fun o =>
        (a.takeoffs_indices.length, b.takeoffs_indices.length,
          o.takeoffs_indices.length, o.landings_indices.length))))) = .ok (1, 1, 1, 1) ∧
    (1 : ℕ) ≠ 1 + 1 :=
  ⟨rfl, by decide⟩

/-- Claim C1 (amended): concatenating segmented series A (fA flights) and B
(fB flights) yields exactly fA + fB takeoffs and landings precisely when the
freshly recomputed index lists of the combined signal have fA + fB + 1 entries
each, i.e. when exactly one spurious junction event pair appeared; the splice
correction then removes it. -/
theorem c1_concatenation_flight_count (a b : CoPData)
    (hT : (CoPData.init ⟨concatT a.t b.t, a.y ++ b.y, a.conversion_factor⟩).map
        (fun m => m.takeoffs_indices.length) =
      .ok (a.takeoffs_indices.length + b.takeoffs_indices.length + 1))
    (hL : (CoPData.init ⟨concatT a.t b.t, a.y ++ b.y, a.conversion_factor⟩).map
        (fun m => m.landings_indices.length) =
      .ok (a.landings_indices.length + b.landings_indices.length + 1)) :
    (CoPData.concatenate a b).map
        (fun o => (o.takeoffs_indices.length, o.landings_indices.length)) =
      .ok (a.takeoffs_indices.length + b.takeoffs_indices.length,
        a.landings_indices.length + b.landings_indices.length) := by
  unfold CoPData.concatenate
  cases h : CoPData.init ⟨concatT a.t b.t, a.y ++ b.y, a.conversion_factor⟩ with
  | error e => rw [h] at hT; simp [Except.map] at hT
  | ok m =>
    rw [h] at hT hL
    simp only [Except.map, Except.ok.injEq] at hT hL ⊢
    refine Prod.ext ?_ ?_
    · simp only [List.length_append, List.length_take, List.length_drop, hT]
      omega
    · simp only [List.length_append, List.length_take, List.length_drop, hL]
      omega

/-- Claim C1 (witness): two one-flight trials that end and begin mid-flight,
so the recomputed combined signal contains exactly one spurious junction
flight; the concatenation then has exactly 1 + 1 flights. -/
theorem c1_concatenation_flight_count_witness :
    (CoPData.concatenate witACoP witBCoP).map
        (fun o => (o.takeoffs_indices.length, o.landings_indices.length)) =
      .ok (witACoP.takeoffs_indices.length + witBCoP.takeoffs_indices.length,
        witACoP.landings_indices.length + witBCoP.landings_indices.length) :=
  c1_concatenation_flight_count witACoP witBCoP rfl rfl

/-- Claim C9 (counterexample): with conversion factor 2147483647, appending
the raw row `[1]` (whose value is not the sentinel) stores the numeric value
2147483647 in `.y` — the sentinel appears as a numeric value after `append`. -/
theorem c9_counterexample :
    ((Data.append ⟨[], [], 2147483647⟩ 0 [1]).y.getLastD []).getD 0 none =
      some (2147483647 : ℚ) ∧ (1 : ℚ) ≠ 2147483647 := by
  constructor
  · norm_num [Data.append]
  · norm_num

/-- Claim C9 (amended): `append` stores a raw sentinel value as NaN and every
other value multiplied by the conversion factor; consequently the sentinel
never appears as a numeric value in the stored matrix, provided the prior
matrix is sentinel-free and no non-sentinel raw value times the conversion
factor equals the sentinel. -/
theorem c9_append_sentinel (d : Data) (ts : ℚ) (row : List ℚ)
    (hprior : ∀ r ∈ d.y, ∀ o ∈ r, o ≠ some (2147483647 : ℚ))
    (hrow : ∀ v ∈ row, v ≠ 2147483647 → v * d.conversion_factor ≠ 2147483647) :
    (Data.append d ts row).y.getLastD [] =
      row.map (fun v => if v ≠ 2147483647 then some (v * d.conversion_factor) else none) ∧
    ∀ r ∈ (Data.append d ts row).y, ∀ o ∈ r, o ≠ some (2147483647 : ℚ) := by
  constructor
  · show (d.y ++ [_]).getLastD [] = _
    rw [List.getLastD_concat]
  · intro r hr o ho
    rcases List.mem_append.mp hr with h | h
    · exact hprior r h o ho
    · have hr2 : r = row.map
          (fun v => if v ≠ 2147483647 then some (v * d.conversion_factor) else none) := by
        simpa [Data.append] using h
      subst hr2
      rcases List.mem_map.mp ho with ⟨v, hv, hvo⟩
      by_cases hs : v = 2147483647
      · rw [if_neg (not_not_intro hs)] at hvo
        simp [← hvo]
      · rw [if_pos hs] at hvo
        intro hcontra
        rw [← hvo] at hcontra
        exact hrow v hv hs (by simpa using hcontra)

/-- Claim C9 (witness for the amended theorem): appending `[5, 2147483647]`
with conversion factor 1 stores `5` converted and the sentinel as NaN, and no
sentinel appears numerically. -/
theorem c9_append_sentinel_witness :
    (Data.append ⟨[], [], 1⟩ 0 [5, 2147483647]).y.getLastD [] =
      [5, 2147483647].map (fun v => if v ≠ 2147483647 then some (v * (1 : ℚ)) else none) ∧
    ∀ r ∈ (Data.append ⟨[], [], 1⟩ 0 [5, 2147483647]).y, ∀ o ∈ r,
      o ≠ some (2147483647 : ℚ) :=
  c9_append_sentinel ⟨[], [], 1⟩ 0 [5, 2147483647] (by simp)
    (by
      intro v hv hne
      fin_cases hv
      · norm_num
      · exact absurd rfl hne)

/-- Claim C10: for a non-empty `self`, `Data.concatenate` is pure — it returns
a fresh series whose time axis is `self.t` followed by `other.t` shifted by
`self.t`'s last value and whose rows are `self.y` followed by `other.y`, and
the arrays of both `self` and `other` are left unchanged in the store. -/
theorem c10_concatenate_pure (s : Store) (self other : DataRef)
    (hts : self.tRef < s.ts.length) (hys : self.yRef < s.ys.length)
    (hto : other.tRef < s.ts.length) (hyo : other.yRef < s.ys.length)
    (_hne : s.getT self.tRef ≠ []) :
    (Data.concatenate s self other).1.getT self.tRef = s.getT self.tRef ∧
    (Data.concatenate s self other).1.getY self.yRef = s.getY self.yRef ∧
    (Data.concatenate s self other).1.getT other.tRef = s.getT other.tRef ∧
    (Data.concatenate s self other).1.getY other.yRef = s.getY other.yRef ∧
    (Data.concatenate s self other).1.getT (Data.concatenate s self other).2.tRef =
      s.getT self.tRef ++
        (s.getT other.tRef).map (fun x => (s.getT self.tRef).getLastD 0 + x) ∧
    (Data.concatenate s self other).1.getY (Data.concatenate s self other).2.yRef =
      s.getY self.yRef ++ s.getY other.yRef := by
  refine ⟨?_, ?_, ?_, ?_, ?_, ?_⟩
  · exact List.getD_append _ _ _ _ hts
  · exact List.getD_append _ _ _ _ hys
  · exact List.getD_append _ _ _ _ hto
  · exact List.getD_append _ _ _ _ hyo
  · show (s.ts ++ [_]).getD s.ts.length [] = _
    rw [List.getD_append_right _ _ _ _ (le_refl _)]
    simp [Store.getT, Store.getY, DataRef.copyInit, Store.allocT]
  · show (s.ys ++ [_]).getD s.ys.length [] = _
    rw [List.getD_append_right _ _ _ _ (le_refl _)]
    simp [Store.getT, Store.getY, DataRef.copyInit, Store.allocT]

/-- Claim C10 (witness): a two-array store with concrete contents. -/
theorem c10_concatenate_pure_witness :
    (Data.concatenate ⟨[[1, 2], [3]], [[[some 1]], [[some 2]]]⟩ ⟨0, 0, 1⟩ ⟨1, 1, 1⟩).1.getT 0 =
      ([[1, 2], [3]] : List (List ℚ)).getD 0 [] ∧
    (Data.concatenate ⟨[[1, 2], [3]], [[[some 1]], [[some 2]]]⟩ ⟨0, 0, 1⟩ ⟨1, 1, 1⟩).1.getY 0 =
      ([[[some 1]], [[some 2]]] : List Table).getD 0 [] ∧
    (Data.concatenate ⟨[[1, 2], [3]], [[[some 1]], [[some 2]]]⟩ ⟨0, 0, 1⟩ ⟨1, 1, 1⟩).1.getT 1 =
      ([[1, 2], [3]] : List (List ℚ)).getD 1 [] ∧
    (Data.concatenate ⟨[[1, 2], [3]], [[[some 1]], [[some 2]]]⟩ ⟨0, 0, 1⟩ ⟨1, 1, 1⟩).1.getY 1 =
      ([[[some 1]], [[some 2]]] : List Table).getD 1 [] ∧
    (Data.concatenate ⟨[[1, 2], [3]], [[[some 1]], [[some 2]]]⟩ ⟨0, 0, 1⟩ ⟨1, 1, 1⟩).1.getT
        (Data.concatenate ⟨[[1, 2], [3]], [[[some 1]], [[some 2]]]⟩ ⟨0, 0, 1⟩ ⟨1, 1, 1⟩).2.tRef =
      (⟨[[1, 2], [3]], [[[some 1]], [[some 2]]]⟩ : Store).getT 0 ++
        ((⟨[[1, 2], [3]], [[[some 1]], [[some 2]]]⟩ : Store).getT 1).map
          (fun x => ((⟨[[1, 2], [3]], [[[some 1]], [[some 2]]]⟩ : Store).getT 0).getLastD 0 + x) ∧
    (Data.concatenate ⟨[[1, 2], [3]], [[[some 1]], [[some 2]]]⟩ ⟨0, 0, 1⟩ ⟨1, 1, 1⟩).1.getY
        (Data.concatenate ⟨[[1, 2], [3]], [[[some 1]], [[some 2]]]⟩ ⟨0, 0, 1⟩ ⟨1, 1, 1⟩).2.yRef =
      (⟨[[1, 2], [3]], [[[some 1]], [[some 2]]]⟩ : Store).getY 0 ++
        (⟨[[1, 2], [3]], [[[some 1]], [[some 2]]]⟩ : Store).getY 1 :=
  c10_concatenate_pure ⟨[[1, 2], [3]], [[[some 1]], [[some 2]]]⟩ ⟨0, 0, 1⟩ ⟨1, 1, 1⟩
    (by decide) (by decide) (by decide) (by decide) (by decide)

/-- Claim C2: whenever the segmenter returns (rather than failing), the
takeoff and landing index lists have equal length — the final count check
turns any post-trim length discrepancy into the mismatch error carrying both
counts, so no input yields unequal lists without an error. -/
theorem c2_equal_counts_or_error (disp : Signal) (tks lds : List ℕ)
    (h : compute_timings_indices disp = .ok (tks, lds)) :
    tks.length = lds.length := by
  simp only [compute_timings_indices] at h
  split at h
  · split at h
    · split at h <;> split at h <;> split at h <;>
        first
          | exact Except.noConfusion h
          | (rw [Except.ok.injEq, Prod.mk.injEq] at h
             obtain ⟨h1, h2⟩ := h
             subst h1
             subst h2
             (try simp only [List.length_dropLast, List.length_tail, List.length_drop] at *)
             omega)
    · simp at h
  · simp at h

/-- Claim C2 (witness): the end-to-end signal segments into two takeoffs and
two landings. -/
theorem c2_equal_counts_or_error_witness :
    compute_timings_indices c4sig = .ok ([2, 6], [4, 8]) ∧
    ([2, 6] : List ℕ).length = ([4, 8] : List ℕ).length :=
  ⟨rfl, c2_equal_counts_or_error c4sig [2, 6] [4, 8] rfl⟩

/-! ### Indexing helper lemmas -/

theorem getD_zipWith {α β γ : Type} (f : α → β → γ) (l1 : List α) (l2 : List β) (i : ℕ)
    (d1 : α) (d2 : β) (d : γ) (h : i < (List.zipWith f l1 l2).length) :
    (List.zipWith f l1 l2).getD i d = f (l1.getD i d1) (l2.getD i d2) := by
  induction l1 generalizing l2 i with
  | nil => simp at h
  | cons a l1 ih =>
    cases l2 with
    | nil => simp at h
    | cons b l2 =>
      cases i with
      | zero => rfl
      | succ n =>
        simp only [List.zipWith_cons_cons, List.length_cons] at h
        simp only [List.getD_cons_succ]
        exact ih l2 n (by omega)

theorem getD_zip {α β : Type} (l1 : List α) (l2 : List β) (i : ℕ)
    (d1 : α) (d2 : β) (h : i < (l1.zip l2).length) :
    (l1.zip l2).getD i (d1, d2) = (l1.getD i d1, l2.getD i d2) := by
  induction l1 generalizing l2 i with
  | nil => simp at h
  | cons a l1 ih =>
    cases l2 with
    | nil => simp at h
    | cons b l2 =>
      cases i with
      | zero => rfl
      | succ n =>
        simp only [List.zip_cons_cons, List.length_cons] at h
        simp only [List.getD_cons_succ]
        exact ih l2 n (by omega)

theorem getD_drop {α : Type} (l : List α) (n : ℕ) : ∀ (j : ℕ) (d : α),
    (l.drop n).getD j d = l.getD (n + j) d := by
  induction n generalizing l with
  | zero => intro j d; simp
  | succ m ih =>
    intro j d
    cases l with
    | nil => simp
    | cons a l =>
      have : m + 1 + j = (m + j) + 1 := by omega
      rw [List.drop_succ_cons, ih l j d, this, List.getD_cons_succ]

theorem getD_take {α : Type} (l : List α) : ∀ (n j : ℕ) (d : α), j < n →
    (l.take n).getD j d = l.getD j d := by
  induction l with
  | nil => intro n j d _; simp
  | cons a l ih =>
    intro n j d h
    cases n with
    | zero => omega
    | succ m =>
      cases j with
      | zero => rfl
      | succ jj =>
        rw [List.take_succ_cons, List.getD_cons_succ, List.getD_cons_succ]
        exact ih m jj d (by omega)

theorem getD_map {α β : Type} (f : α → β) (l : List α) (i : ℕ) (d : β) (d1 : α)
    (h : i < l.length) : (l.map f).getD i d = f (l.getD i d1) := by
  induction l generalizing i with
  | nil => simp at h
  | cons a l ih =>
    cases i with
    | zero => rfl
    | succ n =>
      simp only [List.length_cons] at h
      simp only [List.map_cons, List.getD_cons_succ]
      exact ih n (by omega)

theorem getD_replicate {α : Type} (a d : α) (n : ℕ) : ∀ i, i < n →
    (List.replicate n a).getD i d = a := by
  induction n with
  | zero => intro i h; omega
  | succ m ih =>
    intro i h
    cases i with
    | zero => rfl
    | succ j =>
      rw [List.replicate_succ, List.getD_cons_succ]
      exact ih j (by omega)

theorem getD_dropLast {α : Type} (l : List α) (n : ℕ) (d : α) (h : n < l.length - 1) :
    l.dropLast.getD n d = l.getD n d := by
  rw [List.dropLast_eq_take, getD_take l (l.length - 1) n d h]

theorem matMetric_length {α : Type} (tks lds : List ℕ) (f : ℕ × ℕ → α) :
    (matMetric tks lds f).length = min (tks.length - 1) (lds.length - 1) := by
  simp [matMetric]

theorem matMetric_getD {α : Type} (tks lds : List ℕ) (f : ℕ × ℕ → α) (k : ℕ) (d : α)
    (h1 : k + 1 < tks.length) (h2 : k + 1 < lds.length) :
    (matMetric tks lds f).getD k d = f (tks.getD (k + 1) 0, lds.getD k 0) := by
  unfold matMetric
  have hlen : k < ((tks.drop 1).zip lds.dropLast).length := by
    simp only [List.length_zip, List.length_drop, List.length_dropLast]
    omega
  rw [getD_map _ _ _ _ (0, 0) hlen, getD_zip _ _ _ 0 0 hlen, getD_drop,
    getD_dropLast lds k 0 (by omega)]
  have : 1 + k = k + 1 := by omega
  rw [this]

/-- Claim C6: every per-mat-interval metric is a list of exactly `n - 1`
values for a series with `n` flights, and its `k`-th entry is computed over
the sample range from `landings[k]` (inclusive) to `takeoffs[k+1]`
(exclusive) — the stance phase between landing `k` and the next takeoff. -/
theorem c6_mat_interval_metrics :
    (∀ (c : CoPData) (n : ℕ), c.takeoffs_indices.length = n → c.landings_indices.length = n →
      (c.displacement_integral.length = n - 1 ∧
        c.displacement_ranges.length = n - 1 ∧
        c.impulses.length = n - 1 ∧
        c.velocity_ranges.length = n - 1 ∧
        c.acceleration_integral.length = n - 1 ∧
        c.acceleration_ranges.length = n - 1) ∧
      ∀ k, k < n - 1 →
        c.displacement_integral.getD k 0 =
          integral
            (pySlice c.t (c.landings_indices.getD k 0) (c.takeoffs_indices.getD (k + 1) 0))
            (pySlice c.displacement (c.landings_indices.getD k 0)
              (c.takeoffs_indices.getD (k + 1) 0)) ∧
        c.displacement_ranges.getD k 0 =
          nanmax (pySlice c.displacement (c.landings_indices.getD k 0)
              (c.takeoffs_indices.getD (k + 1) 0)) -
            nanmin (pySlice c.displacement (c.landings_indices.getD k 0)
              (c.takeoffs_indices.getD (k + 1) 0)) ∧
        c.impulses.getD k 0 =
          integral
            (pySlice c.t (c.landings_indices.getD k 0) (c.takeoffs_indices.getD (k + 1) 0))
            (pySlice c.velocity (c.landings_indices.getD k 0)
              (c.takeoffs_indices.getD (k + 1) 0)) ∧
        c.velocity_ranges.getD k 0 =
          nanmax (pySlice c.velocity (c.landings_indices.getD k 0)
              (c.takeoffs_indices.getD (k + 1) 0)) -
            nanmin (pySlice c.velocity (c.landings_indices.getD k 0)
              (c.takeoffs_indices.getD (k + 1) 0)) ∧
        c.acceleration_integral.getD k 0 =
          integral
            (pySlice c.t (c.landings_indices.getD k 0) (c.takeoffs_indices.getD (k + 1) 0))
            (pySlice c.acceleration (c.landings_indices.getD k 0)
              (c.takeoffs_indices.getD (k + 1) 0)) ∧
        c.acceleration_ranges.getD k 0 =
          nanmax (pySlice c.acceleration (c.landings_indices.getD k 0)
              (c.takeoffs_indices.getD (k + 1) 0)) -
            nanmin (pySlice c.acceleration (c.landings_indices.getD k 0)
              (c.takeoffs_indices.getD (k + 1) 0))) ∧
    ∀ (f : ForceSensorData) (n : ℕ), f.takeoffs_indices.length = n →
      f.landings_indices.length = n →
      f.force_integral.length = n - 1 ∧
      ∀ k, k < n - 1 →
        f.force_integral.getD k 0 =
          integral
            (pySlice f.t (f.landings_indices.getD k 0) (f.takeoffs_indices.getD (k + 1) 0))
            (pySlice f.y (f.landings_indices.getD k 0) (f.takeoffs_indices.getD (k + 1) 0)) := by
  constructor
  · intro c n hT hL
    constructor
    · refine ⟨?_, ?_, ?_, ?_, ?_, ?_⟩ <;>
        simp only [CoPData.displacement_integral, CoPData.displacement_ranges,
          CoPData.impulses, CoPData.velocity_ranges, CoPData.acceleration_integral,
          CoPData.acceleration_ranges, matMetric_length, hT, hL, min_self]
    · intro k hk
      have h1 : k + 1 < c.takeoffs_indices.length := by omega
      have h2 : k + 1 < c.landings_indices.length := by omega
      refine ⟨?_, ?_, ?_, ?_, ?_, ?_⟩ <;>
        simp only [CoPData.displacement_integral, CoPData.displacement_ranges,
          CoPData.impulses, CoPData.velocity_ranges, CoPData.acceleration_integral,
          CoPData.acceleration_ranges, matMetric_getD _ _ _ _ _ h1 h2]
  · intro f n hT hL
    constructor
    · simp only [ForceSensorData.force_integral, matMetric_length, hT, hL, min_self]
    · intro k hk
      have h1 : k + 1 < f.takeoffs_indices.length := by omega
      have h2 : k + 1 < f.landings_indices.length := by omega
      simp only [ForceSensorData.force_integral, matMetric_getD _ _ _ _ _ h1 h2]

/-- Claim C6 (witness): a concrete segmented series and force series with two
flights each have one mat interval. -/
theorem c6_mat_interval_metrics_witness :
    c6cop.takeoffs_indices.length = 2 ∧ c6cop.landings_indices.length = 2 ∧
    c6cop.displacement_integral.length = 2 - 1 ∧
    c6force.force_integral.length = 2 - 1 :=
  ⟨rfl, rfl, ((c6_mat_interval_metrics.1 c6cop 2 rfl rfl).1).1,
    (c6_mat_interval_metrics.2 c6force 2 rfl rfl).1⟩

theorem getD_triple_left {α : Type} (p q r : List α) (i : ℕ) (d : α) (h : i < p.length) :
    (p ++ q ++ r).getD i d = p.getD i d := by
  rw [List.getD_append _ _ _ _ (by rw [List.length_append]; omega),
    List.getD_append _ _ _ _ h]

theorem getD_triple_mid {α : Type} (p q r : List α) (i : ℕ) (d : α) (h1 : p.length ≤ i)
    (h2 : i < p.length + q.length) :
    (p ++ q ++ r).getD i d = q.getD (i - p.length) d := by
  rw [List.getD_append _ _ _ _ (by rw [List.length_append]; omega),
    List.getD_append_right _ _ _ _ h1]

theorem getD_triple_right {α : Type} (p q r : List α) (i : ℕ) (d : α)
    (h1 : p.length + q.length ≤ i) :
    (p ++ q ++ r).getD i d = r.getD (i - p.length - q.length) d := by
  rw [List.getD_append_right _ _ _ _ (by rw [List.length_append]; omega), List.length_append]
  congr 1
  omega

theorem pySliceNeg_pos {α : Type} (k : ℕ) (l : List α) (h : k ≠ 0) :
    pySliceNeg k l = l.take (l.length - k) := if_neg h

theorem derivative_pos (t : List ℚ) (data : Table) (w : ℕ) (hw : 0 < w) :
    derivative t data w =
      List.replicate w (List.replicate (data.headD []).length none) ++
        List.zipWith (fun pr d => rowDerivative pr.1 pr.2 d)
          ((data.take (data.length - w * 2)).zip (data.drop (w * 2)))
          (List.zipWith (fun a b => a - b) (t.take (t.length - w * 2))
            (t.drop (w * 2))) ++
        List.replicate w (List.replicate (data.headD []).length none) := by
  simp only [derivative]
  rw [pySliceNeg_pos _ _ (by omega), pySliceNeg_pos _ _ (by omega)]

/-- Claim C7 (counterexample): `window = 0` is allowed by `N > 2·window`
with a one-row input, but Python's `[:-0]` is the empty slice, so
`derivative` returns an empty array there instead of `N` rows. -/
theorem c7_counterexample :
    2 * 0 < ([[some (1 : ℚ)]] : Table).length ∧
    derivative [0] [[some 1]] 0 = [] ∧
    (derivative [0] [[some 1]] 0).length ≠ ([[some (1 : ℚ)]] : Table).length :=
  ⟨by decide, rfl, by decide⟩

/-- Claim C7 (amended): for `window ≥ 1` and `N > 2·window`, `derivative`
returns `N` rows; the first and last `window` rows are all-NaN, and row `i`
for `window ≤ i < N - window` is
`(data[i-w] - data[i+w]) / (t[i-w] - t[i+w])` per channel. -/
theorem c7_derivative_shape (t : List ℚ) (data : Table) (w : ℕ)
    (ht : t.length = data.length) (hN : 2 * w < data.length) (hw : 0 < w) :
    (derivative t data w).length = data.length ∧
    (∀ i, i < w →
      (derivative t data w).getD i [] = List.replicate (data.headD []).length none) ∧
    (∀ i, data.length - w ≤ i → i < data.length →
      (derivative t data w).getD i [] = List.replicate (data.headD []).length none) ∧
    ∀ i, w ≤ i → i < data.length - w →
      (derivative t data w).getD i [] =
        rowDerivative (data.getD (i - w) []) (data.getD (i + w) [])
          (t.getD (i - w) 0 - t.getD (i + w) 0) := by
  have hcore : (List.zipWith (fun pr d => rowDerivative pr.1 pr.2 d)
      ((data.take (data.length - w * 2)).zip (data.drop (w * 2)))
      (List.zipWith (fun a b => a - b) (t.take (t.length - w * 2))
        (t.drop (w * 2)))).length = data.length - 2 * w := by
    simp only [List.length_zipWith, List.length_zip, List.length_take, List.length_drop, ht]
    omega
  refine ⟨?_, ?_, ?_, ?_⟩
  · rw [derivative_pos t data w hw]
    simp only [List.length_append, List.length_replicate, hcore]
    omega
  · intro i hi
    rw [derivative_pos t data w hw, getD_triple_left _ _ _ _ _ (by simp only [List.length_replicate]; omega)]
    exact getD_replicate _ _ _ _ hi
  · intro i hi1 hi2
    rw [derivative_pos t data w hw, getD_triple_right _ _ _ _ _
      (by simp only [List.length_replicate, hcore]; omega)]
    simp only [List.length_replicate, hcore]
    exact getD_replicate _ _ _ _ (by omega)
  · intro i hi1 hi2
    rw [derivative_pos t data w hw, getD_triple_mid _ _ _ _ _
      (by simp only [List.length_replicate]; omega)
      (by simp only [List.length_replicate, hcore]; omega)]
    simp only [List.length_replicate]
    rw [getD_zipWith _ _ _ _ ([], []) 0 _ (by rw [hcore]; omega)]
    rw [getD_zip _ _ _ [] [] (by
      simp only [List.length_zip, List.length_take, List.length_drop]
      omega)]
    rw [getD_zipWith _ _ _ _ 0 0 _ (by
      simp only [List.length_zipWith, List.length_take, List.length_drop, ht]
      omega)]
    rw [getD_take data _ _ _ (by omega), getD_take t _ _ _ (by rw [ht]; omega)]
    rw [getD_drop data, getD_drop t]
    have e2 : w * 2 + (i - w) = i + w := by omega
    rw [e2]

/-- Claim C7 (witness): `derivative [0,1,2] [[1],[2],[3]] 1` has NaN first and
last rows and the central difference in the middle. -/
theorem c7_derivative_shape_witness :
    (derivative [0, 1, 2] [[some 1], [some 2], [some 3]] 1).length = 3 ∧
    (derivative [0, 1, 2] [[some 1], [some 2], [some 3]] 1).getD 0 [] =
      List.replicate (([[some (1 : ℚ)], [some 2], [some 3]] : Table).headD []).length none ∧
    (derivative [0, 1, 2] [[some 1], [some 2], [some 3]] 1).getD 2 [] =
      List.replicate (([[some (1 : ℚ)], [some 2], [some 3]] : Table).headD []).length none ∧
    (derivative [0, 1, 2] [[some 1], [some 2], [some 3]] 1).getD 1 [] =
      rowDerivative [some 1] [some 3]
        (([0, 1, 2] : List ℚ).getD 0 0 - ([0, 1, 2] : List ℚ).getD 2 0) :=
  ⟨(c7_derivative_shape [0, 1, 2] [[some 1], [some 2], [some 3]] 1 rfl (by decide)
      (by decide)).1,
    (c7_derivative_shape [0, 1, 2] [[some 1], [some 2], [some 3]] 1 rfl (by decide)
      (by decide)).2.1 0 (by decide),
    (c7_derivative_shape [0, 1, 2] [[some 1], [some 2], [some 3]] 1 rfl (by decide)
      (by decide)).2.2.1 2 (by decide) (by decide),
    (c7_derivative_shape [0, 1, 2] [[some 1], [some 2], [some 3]] 1 rfl (by decide)
      (by decide)).2.2.2 1 (by decide) (by decide)⟩

theorem list_sum_getD (l : List ℚ) : l.sum = ∑ i ∈ Finset.range l.length, l.getD i 0 := by
  induction l with
  | nil => simp
  | cons a l ih =>
    rw [List.sum_cons, ih, List.length_cons, Finset.sum_range_succ']
    simp only [List.getD_cons_succ, List.getD_cons_zero]
    rw [add_comm]

theorem integral_eq_spec (t : List ℚ) (data : Table) (C : ℕ)
    (ht : t.length = data.length) (hC : ∀ r ∈ data, r.length = C) :
    integral t data = trapezoid_spec t data C := by
  unfold integral trapezoid_spec
  rw [list_sum_getD]
  simp only [List.length_zipWith, List.length_zip, List.length_take, List.length_drop, ht,
    Nat.min_self]
  have hms : (List.length data - 1) ⊓ ((List.length data - 1) ⊓ List.length data) =
      List.length data - 1 := by omega
  rw [hms]
  refine Finset.sum_congr rfl ?_
  intro i hi
  rw [Finset.mem_range] at hi
  rw [getD_zipWith _ _ _ _ 0 ([], []) _ (by
    simp only [List.length_zipWith, List.length_zip, List.length_take, List.length_drop, ht,
      Nat.min_self]
    omega)]
  rw [getD_zipWith _ _ _ _ 0 0 _ (by
    simp only [List.length_zipWith, List.length_take, List.length_drop, ht, Nat.min_self]
    omega)]
  rw [getD_zip _ _ _ [] [] (by
    simp only [List.length_zip, List.length_take, List.length_drop, Nat.min_self]
    omega)]
  rw [getD_drop t, getD_take t _ _ _ (by omega), getD_drop data,
    getD_take data _ _ _ (by omega)]
  have h1i : 1 + i = i + 1 := by omega
  rw [h1i]
  have m1 : data.getD (i + 1) [] ∈ data := by
    rw [List.getD_eq_getElem _ _ (by omega)]
    exact List.getElem_mem _
  have m2 : data.getD i [] ∈ data := by
    rw [List.getD_eq_getElem _ _ (by omega)]
    exact List.getElem_mem _
  rw [list_sum_getD]
  simp only [List.length_map, List.length_zipWith, hC _ m1, hC _ m2, Nat.min_self]
  refine Finset.sum_congr rfl ?_
  intro ch hch
  rw [Finset.mem_range] at hch
  rw [getD_map _ _ _ _ none (by
    simp only [List.length_zipWith, hC _ m1, hC _ m2, Nat.min_self]
    omega)]
  rw [getD_zipWith _ _ _ _ none none _ (by
    simp only [List.length_zipWith, hC _ m1, hC _ m2, Nat.min_self]
    omega)]
  rcases h1 : (data.getD (i + 1) []).getD ch none with _ | a <;>
    rcases h2 : (data.getD i []).getD ch none with _ | b <;>
      simp only [oadd]
  · ring

theorem integral_cons (t0 t1 : ℚ) (tr : List ℚ) (r0 r1 : Row) (dr : Table) :
    integral (t0 :: t1 :: tr) (r0 :: r1 :: dr) =
      ((List.zipWith oadd r1 r0).map
        (fun o => match o with
          | some v => (t1 - t0) * (v / 2)
          | none => 0)).sum + integral (t1 :: tr) (r1 :: dr) := by
  simp only [integral, List.length_cons, List.drop_succ_cons, List.drop_zero,
    Nat.add_sub_cancel, List.take_succ_cons, List.zipWith_cons_cons, List.zip_cons_cons,
    List.sum_cons]

theorem integral_const_grid (h c : ℚ) : ∀ (n : ℕ) (a : ℚ),
    integral (tGrid a h n) (List.replicate (n + 1) [some c]) = c * h * n := by
  intro n
  induction n with
  | zero =>
    intro a
    simp [integral, tGrid]
  | succ m ih =>
    intro a
    cases m with
    | zero =>
      simp only [tGrid]
      rw [show (List.replicate (0 + 1 + 1) [some c] : Table) =
        [some c] :: [some c] :: ([] : Table) from rfl]
      rw [integral_cons]
      simp [integral, oadd]
      ring
    | succ k =>
      rw [show tGrid a h (k + 1 + 1) = a :: (a + h) :: tGrid (a + h + h) h k from rfl]
      rw [show (List.replicate (k + 1 + 1 + 1) [some c] : Table) =
        [some c] :: [some c] :: List.replicate (k + 1) [some c] from rfl]
      rw [integral_cons]
      have hIH := ih (a + h)
      push_cast at hIH
      rw [show integral ((a + h) :: tGrid (a + h + h) h k)
          ([some c] :: List.replicate (k + 1) [some c]) = c * h * ((k : ℚ) + 1) from hIH]
      simp only [List.zipWith_cons_cons, List.zipWith_nil_right, oadd, List.map_cons,
        List.map_nil, List.sum_cons, List.sum_nil]
      push_cast
      ring

/-- Claim C8: the trapezoid integral equals the pairwise sum formula of the
spec (NaN pairs contributing zero, channels summed), and on a constant signal
`c` over a uniform grid with step `h` and `n` intervals it equals `c·h·n`. -/
theorem c8_trapezoid_integral :
    (∀ (t : List ℚ) (data : Table) (C : ℕ), t.length = data.length →
      (∀ r ∈ data, r.length = C) → integral t data = trapezoid_spec t data C) ∧
    ∀ (a h : ℚ) (n : ℕ) (c : ℚ),
      integral (tGrid a h n) (List.replicate (n + 1) [some c]) = c * h * n :=
  ⟨fun t data C ht hC => integral_eq_spec t data C ht hC,
    fun a h n c => integral_const_grid h c n a⟩

/-- Claim C8 (witness): a concrete two-sample constant signal. -/
theorem c8_trapezoid_integral_witness :
    ([0, 1] : List ℚ).length = ([[some (3 : ℚ)], [some 3]] : Table).length ∧
    integral [0, 1] [[some 3], [some 3]] = trapezoid_spec [0, 1] [[some 3], [some 3]] 1 :=
  ⟨rfl, c8_trapezoid_integral.1 [0, 1] [[some 3], [some 3]] 1 rfl
    (by
      intro r hr
      simp only [List.mem_cons, List.not_mem_nil, or_false] at hr
      rcases hr with h | h <;> subst h <;> rfl)⟩

/-! ### Analysis of the segmenter: event characterisation -/

theorem whereEq_sorted (e : List ℤ) (v : ℤ) : (whereEq e v).Sorted (· < ·) :=
  List.Pairwise.sublist (List.filter_sublist _) (List.sorted_lt_range _)

theorem mem_whereEq {e : List ℤ} {v : ℤ} {i : ℕ} :
    i ∈ whereEq e v ↔ i < e.length ∧ e.getD i 0 = v := by
  simp [whereEq, List.mem_filter, List.mem_range]

theorem zeroFirstTwo_length (l : List ℤ) : (zeroFirstTwo l).length = l.length := by
  match l with
  | [] => rfl
  | [_] => rfl
  | _ :: _ :: _ => rfl

theorem zeroFirstTwo_getD_small (l : List ℤ) (i : ℕ) (h : i < 2) :
    (zeroFirstTwo l).getD i 0 = 0 := by
  match l, i with
  | [], _ => simp [zeroFirstTwo]
  | [_], 0 => rfl
  | [_], 1 => rfl
  | [_], n + 2 => omega
  | _ :: _ :: _, 0 => rfl
  | _ :: _ :: _, 1 => rfl
  | _ :: _ :: _, n + 2 => omega

theorem zeroFirstTwo_getD (l : List ℤ) (i : ℕ) (h : 2 ≤ i) :
    (zeroFirstTwo l).getD i 0 = l.getD i 0 := by
  match l, i with
  | [], _ => rfl
  | [_], 0 => omega
  | [_], 1 => omega
  | [_], n + 2 => rfl
  | _ :: _ :: _, 0 => omega
  | _ :: _ :: _, 1 => omega
  | _ :: _ :: _, n + 2 => rfl

theorem rawEvents_getD (g : List ℤ) (i : ℕ) (h : 1 ≤ i) :
    (rawEvents g).getD i 0 = if i < g.length then g.getD i 0 - g.getD (i - 1) 0 else 0 := by
  unfold rawEvents
  cases i with
  | zero => omega
  | succ n =>
    rw [List.getD_cons_succ]
    by_cases hn : n + 1 < g.length
    · rw [if_pos hn]
      have hzl : n < (List.zipWith (fun a b => a - b) (g.drop 1) g).length := by
        simp only [List.length_zipWith, List.length_drop]
        omega
      rw [getD_zipWith _ _ _ _ 0 0 _ hzl, getD_drop]
      have h1n : 1 + n = n + 1 := by omega
      rw [h1n]
      simp
    · rw [if_neg hn, List.getD_eq_default]
      simp only [List.length_zipWith, List.length_drop]
      omega

theorem gapIndicator_length (disp : Signal) : (gapIndicator disp).length = disp.length := by
  simp [gapIndicator]

theorem gapIndicator_getD (disp : Signal) (i : ℕ) (h : i < disp.length) :
    (gapIndicator disp).getD i 0 = if isGap disp i then 1 else 0 := by
  unfold gapIndicator
  rw [getD_map _ _ _ _ (some 0) h]
  rfl

theorem eventsOf_length (disp : Signal) : (eventsOf disp).length = max disp.length 1 := by
  unfold eventsOf rawEvents
  rw [zeroFirstTwo_length]
  simp only [List.length_cons, List.length_zipWith, List.length_drop, gapIndicator_length]
  omega

theorem eventsOf_getD_small (disp : Signal) (i : ℕ) (h : i < 2) :
    (eventsOf disp).getD i 0 = 0 :=
  zeroFirstTwo_getD_small _ _ h

theorem eventsOf_getD (disp : Signal) (i : ℕ) (h2 : 2 ≤ i) :
    (eventsOf disp).getD i 0 =
      if i < disp.length then
        (if isGap disp i then 1 else 0) - (if isGap disp (i - 1) then 1 else 0)
      else 0 := by
  unfold eventsOf
  rw [zeroFirstTwo_getD _ _ h2, rawEvents_getD _ _ (by omega), gapIndicator_length]
  by_cases h : i < disp.length
  · rw [if_pos h, if_pos h, gapIndicator_getD _ _ h, gapIndicator_getD _ _ (by omega)]
  · rw [if_neg h, if_neg h]

theorem mem_takeoffs {disp : Signal} {i : ℕ} :
    i ∈ whereEq (eventsOf disp) 1 ↔ TkEvent disp i := by
  rw [mem_whereEq]
  constructor
  · rintro ⟨hlen, hval⟩
    have h2 : 2 ≤ i := by
      by_contra hlt
      rw [eventsOf_getD_small _ _ (by omega)] at hval
      omega
    rw [eventsOf_getD _ _ h2] at hval
    by_cases hN : i < disp.length
    · rw [if_pos hN] at hval
      cases hg1 : isGap disp i <;> cases hg2 : isGap disp (i - 1) <;>
          simp [hg1, hg2] at hval
      exact ⟨h2, hN, hg1, hg2⟩
    · rw [if_neg hN] at hval
      omega
  · rintro ⟨h2, hN, hg1, hg2⟩
    refine ⟨by rw [eventsOf_length]; omega, ?_⟩
    rw [eventsOf_getD _ _ h2, if_pos hN, hg1, hg2]
    norm_num

theorem mem_landings {disp : Signal} {i : ℕ} :
    i ∈ whereEq (eventsOf disp) (-1) ↔ LdEvent disp i := by
  rw [mem_whereEq]
  constructor
  · rintro ⟨hlen, hval⟩
    have h2 : 2 ≤ i := by
      by_contra hlt
      rw [eventsOf_getD_small _ _ (by omega)] at hval
      omega
    rw [eventsOf_getD _ _ h2] at hval
    by_cases hN : i < disp.length
    · rw [if_pos hN] at hval
      cases hg1 : isGap disp i <;> cases hg2 : isGap disp (i - 1) <;>
          simp [hg1, hg2] at hval
      exact ⟨h2, hN, hg1, hg2⟩
    · rw [if_neg hN] at hval
      omega
  · rintro ⟨h2, hN, hg1, hg2⟩
    refine ⟨by rw [eventsOf_length]; omega, ?_⟩
    rw [eventsOf_getD _ _ h2, if_pos hN, hg1, hg2]
    norm_num

theorem exists_fall (P : ℕ → Bool) : ∀ (j i : ℕ), P i = true → P j = false → i < j →
    ∃ c, i < c ∧ c ≤ j ∧ P (c - 1) = true ∧ P c = false := by
  intro j
  induction j using Nat.strong_induction_on with
  | _ j ih =>
    intro i hi hj hij
    by_cases hj1 : P (j - 1) = true
    · exact ⟨j, hij, le_refl j, hj1, hj⟩
    · have hj1f : P (j - 1) = false := by
        cases h : P (j - 1)
        · rfl
        · exact absurd h hj1
      have hne : i ≠ j - 1 := by
        intro he
        rw [← he] at hj1f
        rw [hi] at hj1f
        exact Bool.noConfusion hj1f
      obtain ⟨c, h1, h2, h3, h4⟩ := ih (j - 1) (by omega) i hi hj1f (by omega)
      exact ⟨c, h1, by omega, h3, h4⟩

theorem tk_ne_ld {disp : Signal} {i : ℕ} (ht : TkEvent disp i) (hl : LdEvent disp i) :
    False := by
  obtain ⟨_, _, h1, _⟩ := ht
  obtain ⟨_, _, h2, _⟩ := hl
  rw [h1] at h2
  exact Bool.noConfusion h2

theorem landing_between (disp : Signal) {i j : ℕ} (hi : TkEvent disp i) (hj : TkEvent disp j)
    (hij : i < j) : ∃ c, LdEvent disp c ∧ i < c ∧ c < j := by
  obtain ⟨h2i, hNi, hgi, hgi1⟩ := hi
  obtain ⟨h2j, hNj, hgj, hgj1⟩ := hj
  have hne : i < j - 1 := by
    rcases Nat.lt_or_ge i (j - 1) with h | h
    · exact h
    · exfalso
      have he : i = j - 1 := by omega
      rw [he] at hgi
      rw [hgi] at hgj1
      exact Bool.noConfusion hgj1
  obtain ⟨c, hc1, hc2, hc3, hc4⟩ :=
    exists_fall (fun k => isGap disp k) (j - 1) i hgi hgj1 hne
  exact ⟨c, ⟨by omega, by omega, hc4, hc3⟩, hc1, by omega⟩

theorem takeoff_between (disp : Signal) {i j : ℕ} (hi : LdEvent disp i) (hj : LdEvent disp j)
    (hij : i < j) : ∃ c, TkEvent disp c ∧ i < c ∧ c < j := by
  obtain ⟨h2i, hNi, hgi, hgi1⟩ := hi
  obtain ⟨h2j, hNj, hgj, hgj1⟩ := hj
  have hne : i < j - 1 := by
    rcases Nat.lt_or_ge i (j - 1) with h | h
    · exact h
    · exfalso
      have he : i = j - 1 := by omega
      rw [he] at hgi
      rw [hgi] at hgj1
      exact Bool.noConfusion hgj1
  obtain ⟨c, hc1, hc2, hc3, hc4⟩ :=
    exists_fall (fun k => !(isGap disp k)) (j - 1) i (by simp [hgi]) (by simp [hgj1]) hne
  refine ⟨c, ⟨by omega, by omega, ?_, ?_⟩, hc1, by omega⟩
  · simpa using hc4
  · simpa using hc3

theorem getLast?_mem {l : List ℕ} {m : ℕ} (h : l.getLast? = some m) : m ∈ l := by
  induction l with
  | nil => simp at h
  | cons b rest ih =>
    cases rest with
    | nil =>
      rw [List.getLast?_singleton, Option.some.injEq] at h
      subst h
      exact List.mem_singleton_self _
    | cons c rest2 =>
      rw [List.getLast?_cons_cons] at h
      exact List.mem_cons_of_mem _ (ih h)

theorem sorted_head_le {l : List ℕ} {a x : ℕ} (hs : l.Sorted (· < ·))
    (hh : l.head? = some a) (hx : x ∈ l) : a ≤ x := by
  cases l with
  | nil => simp at hh
  | cons b rest =>
    rw [List.head?_cons, Option.some.injEq] at hh
    subst hh
    rcases List.mem_cons.mp hx with h | h
    · omega
    · exact le_of_lt ((List.sorted_cons.mp hs).1 x h)

theorem sorted_le_getLast {l : List ℕ} {m x : ℕ} (hs : l.Sorted (· < ·))
    (hl : l.getLast? = some m) (hx : x ∈ l) : x ≤ m := by
  induction l with
  | nil => simp at hx
  | cons b rest ih =>
    cases rest with
    | nil =>
      rw [List.getLast?_singleton, Option.some.injEq] at hl
      rcases List.mem_cons.mp hx with h | h
      · omega
      · simp at h
    | cons c rest2 =>
      rw [List.getLast?_cons_cons] at hl
      rcases List.mem_cons.mp hx with h | h
      · subst h
        have hm : m ∈ c :: rest2 := getLast?_mem hl
        exact le_of_lt ((List.sorted_cons.mp hs).1 m hm)
      · exact ih (List.sorted_cons.mp hs).2 hl h

theorem mem_dropLast_of_ne {l : List ℕ} {x : ℕ} (hne : l ≠ []) (hx : x ∈ l)
    (hxl : x ≠ l.getLast hne) : x ∈ l.dropLast := by
  have hd := List.dropLast_append_getLast hne
  rw [← hd] at hx
  rcases List.mem_append.mp hx with h | h
  · exact h
  · rw [List.mem_singleton] at h
    exact absurd h hxl

theorem getLastD_of_ne_nil {l : List ℕ} (hne : l ≠ []) (d : ℕ) :
    l.getLastD d = l.getLast hne := by
  rw [List.getLastD_eq_getLast?, List.getLast?_eq_getLast_of_ne_nil hne]
  rfl

theorem head?_shape {l : List ℕ} {a : ℕ} (h : l.head? = some a) : l = a :: l.tail := by
  cases l with
  | nil => simp at h
  | cons b rest =>
    rw [List.head?_cons, Option.some.injEq] at h
    subst h
    rfl

theorem interleave_get : ∀ (T L : List ℕ), T.Sorted (· < ·) → L.Sorted (· < ·) →
    T.length = L.length →
    (∀ i ∈ T, ∀ j ∈ T, i < j → ∃ c ∈ L, i < c ∧ c < j) →
    (∀ i ∈ L, ∀ j ∈ L, i < j → ∃ c ∈ T, i < c ∧ c < j) →
    (∀ b ∈ L, ∃ a ∈ T, a < b) →
    ∀ k (hk : k < T.length) (hk2 : k < L.length), T.get ⟨k, hk⟩ < L.get ⟨k, hk2⟩ := by
  intro T
  induction T with
  | nil =>
    intro L _ _ _ _ _ _ k hk _
    simp at hk
  | cons t T1 ih =>
    intro L hsT hsL hlen hTL hLT hfirst k hk hk2
    cases L with
    | nil => simp at hlen
    | cons l L1 =>
      have hTc := List.sorted_cons.mp hsT
      have hLc := List.sorted_cons.mp hsL
      have htl : t < l := by
        obtain ⟨a, haT, hal⟩ := hfirst l (List.mem_cons_self l L1)
        rcases List.mem_cons.mp haT with h | h
        · subst h
          exact hal
        · exact lt_trans (hTc.1 a h) hal
      cases k with
      | zero => exact htl
      | succ n =>
        have hl_lt : ∀ x ∈ T1, l < x := by
          intro x hx
          obtain ⟨c, hcL, hc1, hc2⟩ := hTL t (List.mem_cons_self t T1) x
            (List.mem_cons_of_mem t hx) (hTc.1 x hx)
          have hlc : l ≤ c := by
            rcases List.mem_cons.mp hcL with h | h
            · exact le_of_eq h.symm
            · exact le_of_lt (hLc.1 c h)
          omega
        have hT1L1 : ∀ i ∈ T1, ∀ j ∈ T1, i < j → ∃ c ∈ L1, i < c ∧ c < j := by
          intro i hi j hj hij
          obtain ⟨c, hcL, hc1, hc2⟩ := hTL i (List.mem_cons_of_mem t hi) j
            (List.mem_cons_of_mem t hj) hij
          have hcl : c ≠ l := by
            have := hl_lt i hi
            omega
          rcases List.mem_cons.mp hcL with h | h
          · exact absurd h hcl
          · exact ⟨c, h, hc1, hc2⟩
        have hL1T1 : ∀ i ∈ L1, ∀ j ∈ L1, i < j → ∃ c ∈ T1, i < c ∧ c < j := by
          intro i hi j hj hij
          obtain ⟨c, hcT, hc1, hc2⟩ := hLT i (List.mem_cons_of_mem l hi) j
            (List.mem_cons_of_mem l hj) hij
          have hct : c ≠ t := by
            have h1 : l < i := hLc.1 i hi
            omega
          rcases List.mem_cons.mp hcT with h | h
          · exact absurd h hct
          · exact ⟨c, h, hc1, hc2⟩
        have hfirst1 : ∀ b ∈ L1, ∃ a ∈ T1, a < b := by
          intro b hb
          have hlb : l < b := hLc.1 b hb
          obtain ⟨c, hcT, hc1, hc2⟩ := hLT l (List.mem_cons_self l L1) b
            (List.mem_cons_of_mem l hb) hlb
          have hct : c ≠ t := by omega
          rcases List.mem_cons.mp hcT with h | h
          · exact absurd h hct
          · exact ⟨c, h, hc2⟩
        exact ih L1 hTc.2 hLc.2 (by simpa using hlen) hT1L1 hL1T1 hfirst1 n
          (by simpa using hk) (by simpa using hk2)

theorem seg_lists_get_lt (disp : Signal) (T1 L1 : List ℕ) (t0 l0 : ℕ)
    (hT0h : (whereEq (eventsOf disp) 1).head? = some t0)
    (hL0h : (whereEq (eventsOf disp) (-1)).head? = some l0)
    (hlen : T1.length = L1.length)
    (hT1 : T1 = whereEq (eventsOf disp) 1 ∨
      (T1 = (whereEq (eventsOf disp) 1).dropLast ∧
        ∀ x ∈ L1, ∀ hne : whereEq (eventsOf disp) 1 ≠ [],
          x < (whereEq (eventsOf disp) 1).getLast hne))
    (hL1 : (L1 = whereEq (eventsOf disp) (-1) ∧ t0 < l0) ∨
      (L1 = (whereEq (eventsOf disp) (-1)).drop 1 ∧ l0 < t0)) :
    ∀ k (hk : k < T1.length) (hk2 : k < L1.length), T1.get ⟨k, hk⟩ < L1.get ⟨k, hk2⟩ := by
  set T0 := whereEq (eventsOf disp) 1 with hT0def
  set L0 := whereEq (eventsOf disp) (-1) with hL0def
  have hT0ne : T0 ≠ [] := by
    intro h
    rw [h] at hT0h
    simp at hT0h
  have hT0s : T0.Sorted (· < ·) := whereEq_sorted _ _
  have hL0s : L0.Sorted (· < ·) := whereEq_sorted _ _
  have hT1sub : List.Sublist T1 T0 := by
    rcases hT1 with h | ⟨h, _⟩
    · rw [h]
    · rw [h]
      exact List.dropLast_sublist _
  have hL1sub : List.Sublist L1 L0 := by
    rcases hL1 with ⟨h, _⟩ | ⟨h, _⟩
    · rw [h]
    · rw [h]
      exact List.drop_sublist _ _
  have hT1s : T1.Sorted (· < ·) := List.Pairwise.sublist hT1sub hT0s
  have hL1s : L1.Sorted (· < ·) := List.Pairwise.sublist hL1sub hL0s
  have hmemT : ∀ x ∈ T1, TkEvent disp x := fun x hx => mem_takeoffs.mp (hT1sub.subset hx)
  have hmemL : ∀ x ∈ L1, LdEvent disp x := fun x hx => mem_landings.mp (hL1sub.subset hx)
  have ht0T : t0 ∈ T0 := by
    rw [head?_shape hT0h]
    exact List.mem_cons_self _ _
  have hl0L : l0 ∈ L0 := by
    rw [head?_shape hL0h]
    exact List.mem_cons_self _ _
  have hl0Ld : LdEvent disp l0 := mem_landings.mp hl0L
  have hTL : ∀ i ∈ T1, ∀ j ∈ T1, i < j → ∃ c ∈ L1, i < c ∧ c < j := by
    intro i hi j hj hij
    obtain ⟨c, hcLd, hc1, hc2⟩ := landing_between disp (hmemT i hi) (hmemT j hj) hij
    have hcL0 : c ∈ L0 := mem_landings.mpr hcLd
    rcases hL1 with ⟨hL1e, _⟩ | ⟨hL1e, hl0t0⟩
    · rw [hL1e]
      exact ⟨c, hcL0, hc1, hc2⟩
    · have ht0i : t0 ≤ i := sorted_head_le hT0s hT0h (hT1sub.subset hi)
      have hcl0 : c ≠ l0 := by omega
      rw [hL1e, head?_shape hL0h]
      rw [head?_shape hL0h] at hcL0
      rcases List.mem_cons.mp hcL0 with h | h
      · exact absurd h hcl0
      · exact ⟨c, by simpa using h, hc1, hc2⟩
  have hLT : ∀ i ∈ L1, ∀ j ∈ L1, i < j → ∃ c ∈ T1, i < c ∧ c < j := by
    intro i hi j hj hij
    obtain ⟨c, hcTk, hc1, hc2⟩ := takeoff_between disp (hmemL i hi) (hmemL j hj) hij
    have hcT0 : c ∈ T0 := mem_takeoffs.mpr hcTk
    rcases hT1 with hT1e | ⟨hT1e, hbound⟩
    · rw [hT1e]
      exact ⟨c, hcT0, hc1, hc2⟩
    · have hjlt : j < T0.getLast hT0ne := hbound j hj hT0ne
      have hclast : c ≠ T0.getLast hT0ne := by omega
      rw [hT1e]
      exact ⟨c, mem_dropLast_of_ne hT0ne hcT0 hclast, hc1, hc2⟩
  have hfirst : ∀ b ∈ L1, ∃ a ∈ T1, a < b := by
    intro b hb
    rcases hL1 with ⟨hL1e, ht0l0⟩ | ⟨hL1e, hl0t0⟩
    · have hl0b : l0 ≤ b := sorted_head_le hL0s hL0h (hL1sub.subset hb)
      have ht0b : t0 < b := by omega
      rcases hT1 with hT1e | ⟨hT1e, hbound⟩
      · rw [hT1e]
        exact ⟨t0, ht0T, ht0b⟩
      · have hblast : b < T0.getLast hT0ne := hbound b hb hT0ne
        have ht0last : t0 ≠ T0.getLast hT0ne := by omega
        rw [hT1e]
        exact ⟨t0, mem_dropLast_of_ne hT0ne ht0T ht0last, ht0b⟩
    · have hbL0 : b ∈ L0 := hL1sub.subset hb
      have hshape := head?_shape hL0h
      have hsorted2 : (l0 :: L0.tail).Sorted (· < ·) := by
        rw [← hshape]
        exact hL0s
      have hb2 : b ∈ L0.tail := by
        have hb3 := hb
        rw [hL1e, hshape] at hb3
        simpa using hb3
      have hl0b : l0 < b := (List.sorted_cons.mp hsorted2).1 b hb2
      obtain ⟨c, hcTk, hc1, hc2⟩ := takeoff_between disp hl0Ld (mem_landings.mp hbL0) hl0b
      have hcT0 : c ∈ T0 := mem_takeoffs.mpr hcTk
      rcases hT1 with hT1e | ⟨hT1e, hbound⟩
      · rw [hT1e]
        exact ⟨c, hcT0, hc2⟩
      · have hblast : b < T0.getLast hT0ne := hbound b hb hT0ne
        have hclast : c ≠ T0.getLast hT0ne := by omega
        rw [hT1e]
        exact ⟨c, mem_dropLast_of_ne hT0ne hcT0 hclast, hc2⟩
  exact interleave_get T1 L1 hT1s hL1s hlen hTL hLT hfirst

theorem compute_timings_ok_shape (disp : Signal) (tks lds : List ℕ)
    (h : compute_timings_indices disp = .ok (tks, lds)) :
    ∃ l0 t0 llast,
      (whereEq (eventsOf disp) (-1)).head? = some l0 ∧
      (whereEq (eventsOf disp) 1).head? = some t0 ∧
      lds = (if l0 < t0 then (whereEq (eventsOf disp) (-1)).drop 1
        else whereEq (eventsOf disp) (-1)) ∧
      lds.getLast? = some llast ∧
      (tks = whereEq (eventsOf disp) 1 ∨
        (tks = (whereEq (eventsOf disp) 1).dropLast ∧
          llast < (whereEq (eventsOf disp) 1).getLastD 0)) ∧
      tks.length = lds.length := by
  simp only [compute_timings_indices] at h
  split at h
  · rename_i x1 x2 l0 t0 heqL heqT
    split at h
    · rename_i x3 llast heq2
      split at h <;> split at h <;> split at h <;>
        first
          | exact Except.noConfusion h
          | (rw [Except.ok.injEq, Prod.mk.injEq] at h
             obtain ⟨h1, h2⟩ := h
             subst h1
             subst h2
             refine ⟨l0, t0, llast, heqL, heqT, ?_, ?_, ?_, ?_⟩
             · split
               · first | rfl | (exfalso; omega)
               · first | rfl | (exfalso; omega)
             · revert heq2
               split
               · intro he
                 first | exact he | (exfalso; omega)
               · intro he
                 first | exact he | (exfalso; omega)
             · first
                 | exact Or.inl rfl
                 | exact Or.inr ⟨rfl, by omega⟩
             · (try simp only [List.length_dropLast, List.length_tail,
                  List.length_drop] at *)
               omega)
    · exact Except.noConfusion h
  · exact Except.noConfusion h

/-- Claim C5: whenever segmentation succeeds, every takeoff index strictly
precedes its paired landing index. -/
theorem c5_flight_start_precedes_end (disp : Signal) (tks lds : List ℕ)
    (h : compute_timings_indices disp = .ok (tks, lds)) :
    ∀ k (hk : k < tks.length) (hk2 : k < lds.length),
      tks.get ⟨k, hk⟩ < lds.get ⟨k, hk2⟩ := by
  obtain ⟨l0, t0, llast, heqL, heqT, hlds, hlast, htks, hlen⟩ :=
    compute_timings_ok_shape disp tks lds h
  have hldsub : List.Sublist lds (whereEq (eventsOf disp) (-1)) := by
    rw [hlds]
    split
    · exact List.drop_sublist _ _
    · exact List.Sublist.refl _
  have hldss : lds.Sorted (· < ·) := List.Pairwise.sublist hldsub (whereEq_sorted _ _)
  have hT1 : tks = whereEq (eventsOf disp) 1 ∨
      (tks = (whereEq (eventsOf disp) 1).dropLast ∧
        ∀ x ∈ lds, ∀ hne : whereEq (eventsOf disp) 1 ≠ [],
          x < (whereEq (eventsOf disp) 1).getLast hne) := by
    rcases htks with h1 | ⟨h1, h2⟩
    · exact Or.inl h1
    · refine Or.inr ⟨h1, ?_⟩
      intro x hx hne
      have hxl : x ≤ llast := sorted_le_getLast hldss hlast hx
      rw [← getLastD_of_ne_nil hne 0]
      omega
  have hL1 : (lds = whereEq (eventsOf disp) (-1) ∧ t0 < l0) ∨
      (lds = (whereEq (eventsOf disp) (-1)).drop 1 ∧ l0 < t0) := by
    by_cases hc : l0 < t0
    · right
      rw [hlds, if_pos hc]
      exact ⟨rfl, hc⟩
    · left
      rw [hlds, if_neg hc]
      refine ⟨rfl, ?_⟩
      have ht0Tk : TkEvent disp t0 := mem_takeoffs.mp (by
        rw [head?_shape heqT]
        exact List.mem_cons_self _ _)
      have hl0Ld : LdEvent disp l0 := mem_landings.mp (by
        rw [head?_shape heqL]
        exact List.mem_cons_self _ _)
      have hne : t0 ≠ l0 := by
        intro he
        rw [he] at ht0Tk
        exact tk_ne_ld ht0Tk hl0Ld
      omega
  exact seg_lists_get_lt disp tks lds t0 l0 heqT heqL hlen hT1 hL1

/-- Claim C5 (witness): on the end-to-end signal, the first takeoff index 2
precedes the first landing index 4. -/
theorem c5_flight_start_precedes_end_witness :
    compute_timings_indices c4sig = .ok ([2, 6], [4, 8]) ∧ (2 : ℕ) < 4 :=
  ⟨rfl, c5_flight_start_precedes_end c4sig [2, 6] [4, 8] rfl 0 (by decide) (by decide)⟩
